import Mathlib

/-!
Verification of the cross-reference linking engine of `shabdakosh/generator.py`.

Texts are modelled as `List Char`, positions as `Nat` offsets into that list
(Python string indices are code-point indices, as are `List Char` indices).
Python's ordered `dict` is modelled as an association list in insertion order,
with assignment replacing the value in place and lookup returning the first
(unique) matching key.  All definitions below are transcribed from the source
file; helper names starting `py` model the corresponding Python primitive.
-/

/-- Characters of the Devanagari block `ऀ`–`ॿ`, the class matched by
the word-extraction pattern `[ऀ-ॿ]{3,}`. -/
def isDevanagari (c : Char) : Bool :=
  0x900 ≤ c.toNat && c.toNat ≤ 0x97F

/-- The punctuation set stripped from candidates
(`'।॥.,;:!?()[]{}"\'—–।॥'`; `।`/`॥` are the dandas again). -/
def punctuationChars : List Char :=
  "।॥.,;:!?()[]{}\"'—–।॥".toList

def isPunct (c : Char) : Bool := punctuationChars.contains c

/-- Word-boundary characters (`' \n\t.,;:!?()[]{}"\'—–।॥'`). -/
def boundaryChars : List Char :=
  " \n\t.,;:!?()[]{}\"'—–।॥".toList

/-- The suffix list of `find_root_word`, in source order. -/
def suffixes : List (List Char) :=
  ["हरू".toList, "ले".toList, "को".toList, "लाई".toList, "मा".toList,
   "बाट".toList, "सम्म".toList, "सँग".toList, "बिना".toList, "का".toList,
   "देखि".toList, "तिर".toList]

/-- The `known_suffixes` list of `link_words_in_text`, in source order. -/
def known_suffixes : List (List Char) :=
  ["को".toList, "ले".toList, "लाई".toList, "मा".toList, "बाट".toList,
   "सम्म".toList, "सँग".toList, "का".toList, "देखि".toList, "तिर".toList,
   "हरू".toList, "बिना".toList]

/-- Stable insertion of `x` into `l` after every element `y` with `le y x`:
the insertion step of a stable insertion sort. -/
def insertR (le : α → α → Bool) (x : α) : List α → List α
  | [] => [x]
  | y :: ys => if le y x then y :: insertR le x ys else x :: y :: ys

/-- Stable sort by the total boolean preorder `le` (elements comparing equal
keep their original relative order), modelling Python's stable `sorted`/`sort`. -/
def isort (le : α → α → Bool) (l : List α) : List α :=
  l.foldl (fun acc x => insertR le x acc) []

/-- Longer-first comparison used by `sorted(suffixes, key=len, reverse=True)`. -/
def lenDescLe (a b : List Char) : Bool := b.length ≤ a.length

/-- The suffix table ordered longest first (stable, as Python's `sorted` with
`reverse=True` keeps the original order of equal-length suffixes). -/
def sortedSuffixes : List (List Char) := isort lenDescLe suffixes

/-- The suffix loop of `find_root_word`: first suffix that the word ends with
and such that `len(word) > len(suffix) + 2` produces `word[:-len(suffix)]`,
which is returned if its length is at least 3 (otherwise the loop continues). -/
def findRootGo (w : List Char) : List (List Char) → List Char
  | [] => w
  | s :: rest =>
      if s.isSuffixOf w && s.length + 2 < w.length then
        let root := w.take (w.length - s.length)
        if 3 ≤ root.length then root else findRootGo w rest
      else findRootGo w rest

/-- `find_root_word`: strips common Nepali suffixes (longest first) to find the
root word, returning the original word when no suffix applies. -/
def find_root_word (w : List Char) : List Char :=
  findRootGo w sortedSuffixes

/-- One resolved-and-deduplicable link candidate: the tuple
`(word, start, end) ↦ (filename, is_root_link)` of `words_to_link`
(the stored `word_to_display` always equals the key's word and is never
read afterwards, so it is omitted). -/
structure Entry where
  word : List Char
  startPos : Nat
  endPos : Nat
  filename : List Char
  isRoot : Bool
deriving DecidableEq, Repr

/-- The word-to-filename index: a Python dict in insertion order. -/
abbrev Index := List (List Char × List Char)

/-- Python dict lookup / `in` test: the value at the (unique) matching key. -/
def pyLookup (d : Index) (k : List Char) : Option (List Char) :=
  match d.find? (fun kv => kv.1 == k) with
  | some kv => some kv.2
  | none => none

/-- Strategy 1 of the resolution engine: exact index hit on the cleaned word. -/
def resolveExact (idx : Index) (w : List Char) (astart : Nat) : Option Entry :=
  match pyLookup idx w with
  | some fn => some ⟨w, astart, astart + w.length, fn, false⟩
  | none => none

/-- Strategy 2: root form via `find_root_word`, linked over the root span only. -/
def resolveRoot (idx : Index) (w : List Char) (astart : Nat) : Option Entry :=
  let root := find_root_word w
  if root ≠ w then
    match pyLookup idx root with
    | some fn => some ⟨root, astart, astart + root.length, fn, true⟩
    | none => none
  else none

/-- Strategy 3: explicit check of `known_suffixes` for words longer than 4
characters, linking the remaining prefix when it has length at least 3 and is
an index key; a suffix whose prefix fails those checks does not stop the loop. -/
def resolveKnownSuffix (idx : Index) (w : List Char) (astart : Nat) : Option Entry :=
  if 4 < w.length then
    known_suffixes.findSome? (fun sfx =>
      if sfx.isSuffixOf w then
        let p := w.take (w.length - sfx.length)
        if 3 ≤ p.length then
          match pyLookup idx p with
          | some fn => some ⟨p, astart, astart + p.length, fn, true⟩
          | none => none
        else none
      else none)
  else none

/-- The three strategies in their fixed order, stopping at the first success. -/
def resolveCandidate (idx : Index) (w : List Char) (astart : Nat) : Option Entry :=
  (resolveExact idx w astart).orElse (fun _ =>
    (resolveRoot idx w astart).orElse (fun _ =>
      resolveKnownSuffix idx w astart))

/-- Python's `str.strip(chars)` for the punctuation set. -/
def stripPunct (l : List Char) : List Char :=
  ((l.dropWhile isPunct).reverse.dropWhile isPunct).reverse

/-- Candidate cleaning: strip punctuation from both ends, then remove any
remaining embedded punctuation (`re.sub`), skip candidates that became shorter
than 3 characters or equal the current word, and recompute the adjusted start
by the amount stripped from the front (`len(full) - len(full.lstrip(punct))`). -/
def candidateOfMatch (cur : Option (List Char)) (m : Nat × List Char) :
    Option (List Char × Nat) :=
  let cleaned := (stripPunct m.2).filter (fun c => !isPunct c)
  if cleaned.length < 3 || some cleaned == cur then none
  else
    let strippedFromStart := m.2.length - (m.2.dropWhile isPunct).length
    some (cleaned, m.1 + strippedFromStart)

/-- Scan for matches of `[ऀ-ॿ]{3,}`: maximal runs of Devanagari
characters, keeping those of length at least 3.  `acc` holds the current run
reversed, `accStart` its start offset, `i` the current offset. -/
def scanGo : List Char → Nat → List Char → Nat → List (Nat × List Char)
  | [], _, acc, accStart =>
      if 3 ≤ acc.length then [(accStart, acc.reverse)] else []
  | c :: rest, i, acc, accStart =>
      if isDevanagari c then
        scanGo rest (i + 1) (c :: acc) (if acc.isEmpty then i else accStart)
      else
        (if 3 ≤ acc.length then [(accStart, acc.reverse)] else []) ++
          scanGo rest (i + 1) [] 0

/-- All matches of the word pattern over an escaped text, with start offsets. -/
def scanMatches (s : List Char) : List (Nat × List Char) := scanGo s 0 [] 0

def entryKey (e : Entry) : List Char × Nat × Nat := (e.word, e.startPos, e.endPos)

/-- Python dict assignment `d[k] = v`: replaces the value in place if the key
exists, otherwise appends at the end. -/
def pyDictInsert (d : List Entry) (e : Entry) : List Entry :=
  if d.any (fun x => entryKey x == entryKey e) then
    d.map (fun x => if entryKey x == entryKey e then e else x)
  else d ++ [e]

/-- The guarded insert `if key not in words_to_link: words_to_link[key] = v`. -/
def pyDictInsertIfAbsent (d : List Entry) (e : Entry) : List Entry :=
  if d.any (fun x => entryKey x == entryKey e) then d else d ++ [e]

/-- Resolution of one match: clean it and run the three strategies. -/
def entryOfMatch (idx : Index) (cur : Option (List Char)) (m : Nat × List Char) :
    Option Entry :=
  match candidateOfMatch cur m with
  | some (w, astart) => resolveCandidate idx w astart
  | none => none

/-- The `words_to_link` dict: every match resolved in scan order; exact hits
use plain assignment, root/suffix hits insert only when the key is absent. -/
def buildWordsToLink (idx : Index) (cur : Option (List Char))
    (ms : List (Nat × List Char)) : List Entry :=
  ms.foldl (fun d m =>
    match entryOfMatch idx cur m with
    | none => d
    | some e => if e.isRoot then pyDictInsertIfAbsent d e else pyDictInsert d e) []

/-- Sort key `(start, -len(word))`: ascending start, longer word first on ties. -/
def sortKeyLe (a b : Entry) : Bool :=
  a.startPos < b.startPos ||
    (a.startPos == b.startPos && b.word.length ≤ a.word.length)

/-- HTML escape of one character (`html.escape` with `quote=True`). -/
def escapeChar (c : Char) : List Char :=
  if c = '&' then "&amp;".toList
  else if c = '<' then "&lt;".toList
  else if c = '>' then "&gt;".toList
  else if c = '"' then "&quot;".toList
  else if c = '\'' then "&#x27;".toList
  else [c]

/-- `html.escape(text)`. -/
def htmlEscape (l : List Char) : List Char := (l.map escapeChar).flatten

def htmlPre : List Char := "<a href=\"./".toList

def htmlMid : List Char :=
  "\" style=\"color: #0f62fe; text-decoration: underline;\">".toList

def htmlClose : List Char := "</a>".toList

/-- The literal anchor element spliced in place of an accepted span. -/
def linkHtml (fn w : List Char) : List Char :=
  htmlPre ++ fn ++ htmlMid ++ w ++ htmlClose

/-- Python slice `l[a:b]` (clamping at both ends like Python). -/
def pySlice (l : List Char) (a b : Nat) : List Char := (l.drop a).take (b - a)

/-- Python `str.rfind(c)`: highest index of `c`, or `-1` when absent. -/
def rfindIdx (l : List Char) (c : Char) : Int :=
  match l with
  | [] => -1
  | x :: xs =>
      let r := rfindIdx xs c
      if r ≠ -1 then r + 1 else if x = c then 0 else -1

/-- Python `text.find(w, a, b)`: least `p` with `a ≤ p`, `p + len w ≤ b` and
the slice at `p` equal to `w`. -/
def strFind (l w : List Char) (a b : Nat) : Option Nat :=
  (List.range' a (b + 1 - w.length - a)).find?
    (fun p => pySlice l p (p + w.length) == w)

/-- Re-validation of a candidate's span: keep it if the text still matches,
otherwise search a ±10-character window and relocate; `none` drops it. -/
def relocate (text : List Char) (c : Entry) : Option (Nat × Nat) :=
  if pySlice text c.startPos c.endPos == c.word then some (c.startPos, c.endPos)
  else
    match strFind text c.word (c.startPos - 10) (min text.length (c.endPos + 10)) with
    | some p => some (p, p + c.word.length)
    | none => none

/-- Tag safety, as coded: in the text before the span start, the last `<`
occurs after the last `>`. -/
def tagUnsafe (text : List Char) (s : Nat) : Bool :=
  let textBefore := text.take s
  rfindIdx textBefore '<' > rfindIdx textBefore '>'

/-- Word-boundary check: the character before the span (when any) must be a
boundary character; the character after (when any) must be a boundary
character, except that a root link tolerates a following known suffix. -/
def boundaryOk (text : List Char) (s e : Nat) (isRoot : Bool) : Bool :=
  if s > 0 && !(boundaryChars.contains (text.getD (s - 1) ' ')) then false
  else if e < text.length then
    if isRoot then
      boundaryChars.contains (text.getD e ' ') ||
        known_suffixes.any (fun sfx => sfx.isPrefixOf (text.drop e))
    else boundaryChars.contains (text.getD e ' ')
  else true

/-- The overlap test against already-committed spans, with Python's operator
precedence: `(s ≥ ls and s < le) or (e > ls and e ≤ le)`. -/
def overlapsExisting (positions : List (Nat × Nat)) (s e : Nat) : Bool :=
  positions.any (fun p => (decide (s ≥ p.1) && decide (s < p.2)) ||
    (decide (e > p.1) && decide (e ≤ p.2)))

/-- State of the splicing loop: the current text and the committed spans
(`linked_text` and `linked_positions`). -/
structure RunState where
  text : List Char
  positions : List (Nat × Nat)
deriving Repr

/-- One iteration of the application loop: re-validate/relocate the span, drop
it on tag-unsafety, boundary violation or overlap, otherwise splice the anchor
and record the span it occupies. -/
def applyStep (st : RunState) (c : Entry) : RunState :=
  match relocate st.text c with
  | none => st
  | some (s, e) =>
      if tagUnsafe st.text s then st
      else if !boundaryOk st.text s e c.isRoot then st
      else if overlapsExisting st.positions s e then st
      else
        let h := linkHtml c.filename c.word
        { text := st.text.take s ++ h ++ st.text.drop e,
          positions := st.positions ++ [(s, s + h.length)] }

/-- The candidate list in application order: sorted by `(start, -len)`, then
reversed (rightmost span processed first). -/
def wordListOf (idx : Index) (cur : Option (List Char)) (esc : List Char) :
    List Entry :=
  (isort sortKeyLe (buildWordsToLink idx cur (scanMatches esc))).reverse

/-- `link_words_in_text(text, word_to_filename, current_word)` for non-`None`
arguments: escape the text, collect and resolve candidates, and splice the
accepted links right-to-left. -/
def link_words_in_text (t : List Char) (idx : Index)
    (cur : Option (List Char)) : List Char :=
  if t.isEmpty || idx.isEmpty then (if t.isEmpty then t else htmlEscape t)
  else
    let esc := htmlEscape t
    let wl := buildWordsToLink idx cur (scanMatches esc)
    if wl.isEmpty then esc
    else (wordListOf idx cur esc |>.foldl applyStep ⟨esc, []⟩).text

/-- The full Python signature, where `text` and `word_to_filename` may be
`None`: `if not text or not word_to_filename: return html.escape(text) if text
else text`. -/
def link_words_in_textO (text : Option (List Char)) (idx : Option Index)
    (cur : Option (List Char)) : Option (List Char) :=
  match text, idx with
  | none, _ => none
  | some t, none => if t.isEmpty then some t else some (htmlEscape t)
  | some t, some i => some (link_words_in_text t i cur)

/-- Instrumented splicing state: in addition to the source's `text` and
`positions`, it tracks `ghost`, the committed spans re-expressed in the
coordinates of the current (and finally the output) text, and `accepted`, the
accepted candidates. -/
structure GState where
  text : List Char
  positions : List (Nat × Nat)
  ghost : List (Nat × Nat)
  accepted : List Entry

/-- The application step with ghost instrumentation: identical decisions to
`applyStep`; on a commit every previously committed ghost span (which lies
entirely to the right of the spliced region) is shifted by the length change. -/
def applyStepG (st : GState) (c : Entry) : GState :=
  match relocate st.text c with
  | none => st
  | some (s, e) =>
      if tagUnsafe st.text s then st
      else if !boundaryOk st.text s e c.isRoot then st
      else if overlapsExisting st.positions s e then st
      else
        let h := linkHtml c.filename c.word
        let d := h.length - (e - s)
        { text := st.text.take s ++ h ++ st.text.drop e,
          positions := st.positions ++ [(s, s + h.length)],
          ghost := (st.ghost.map (fun g => (g.1 + d, g.2 + d))) ++ [(s, s + h.length)],
          accepted := st.accepted ++ [c] }

/-- The full instrumented run of the splicing loop over the escaped text. -/
def ghostRun (t : List Char) (idx : Index) (cur : Option (List Char)) : GState :=
  (wordListOf idx cur (htmlEscape t)).foldl applyStepG ⟨htmlEscape t, [], [], []⟩

/-- Tag stripper, state `inside`: text outside `<...>` tag spans is kept,
everything from a `<` through the next `>` is removed. -/
def stripTagsAux : Bool → List Char → List Char
  | _, [] => []
  | false, c :: r => if c = '<' then stripTagsAux true r else c :: stripTagsAux false r
  | true, c :: r => if c = '>' then stripTagsAux false r else stripTagsAux true r

/-- Remove all markup tags, keeping the text between and inside-free of them. -/
def stripTags (l : List Char) : List Char := stripTagsAux false l

/-- The scanner state (`inside a tag?`) after reading `l` from state `b`. -/
def scanState : Bool → List Char → Bool
  | b, [] => b
  | false, c :: r => scanState (if c = '<' then true else false) r
  | true, c :: r => scanState (if c = '>' then false else true) r

/-- Python `str.strip()` whitespace set (the ASCII cases). -/
def isPySpace (c : Char) : Bool :=
  c = ' ' || c = '\t' || c = '\n' || c = '\x0d' || c = '\x0b' || c = '\x0c'

/-- Python `str.strip()`. -/
def pyStrip (l : List Char) : List Char :=
  ((l.dropWhile isPySpace).reverse.dropWhile isPySpace).reverse

/-- Python `str.split("/")`. -/
def splitGo : List Char → List Char → List (List Char)
  | [], acc => [acc.reverse]
  | c :: rest, acc =>
      if c = '/' then acc.reverse :: splitGo rest [] else splitGo rest (c :: acc)

def splitOnSlash (l : List Char) : List (List Char) := splitGo l []

/-- `[w.strip() for w in word_obj["word"].split("/") if w.strip()]`. -/
def entryWords (wordField : List Char) : List (List Char) :=
  ((splitOnSlash wordField).map pyStrip).filter (fun w => !w.isEmpty)

/-- Python dict assignment for the index builder. -/
def pyIdxInsert (d : Index) (kv : List Char × List Char) : Index :=
  if d.any (fun x => x.1 == kv.1) then
    d.map (fun x => if x.1 == kv.1 then kv else x)
  else d ++ [kv]

/-- The index builder of `generate_word_pages`: for every entry's `word` field,
register each slash-separated surface form of length at least 3 under the
filename computed from it.  The filename derivation (`get_filename`, i.e.
`slugify(word) + ".html"`) is passed as the function `f`: it depends only on
the word being registered, which is what the collision claim turns on. -/
def buildIndex (f : List Char → List Char) (wordFields : List (List Char)) : Index :=
  wordFields.foldl (fun d wf =>
    (entryWords wf).foldl (fun d w =>
      if !w.isEmpty && 3 ≤ w.length then pyIdxInsert d (w, f w) else d) d) []

/-- The root-derivation rule as the specification words it: among the suffix
table ordered longest first, the first suffix that the word ends with, whose
length the word's length exceeds by more than 2, and whose removal leaves at
least 3 characters, is stripped; otherwise the word is its own root. -/
def findRootSpec (w : List Char) : List Char :=
  match sortedSuffixes.find?
      (fun s => s.isSuffixOf w && s.length + 2 < w.length && 3 ≤ w.length - s.length) with
  | some s => w.take (w.length - s.length)
  | none => w

/-- C10: a `None` text is returned unchanged, an empty text is returned
unchanged, and a non-empty text with a `None` or empty index comes back
HTML-escaped with no links inserted. -/
theorem c10_degenerate_inputs :
    (∀ idx cur, link_words_in_textO none idx cur = none) ∧
    (∀ idx cur, link_words_in_textO (some []) idx cur = some []) ∧
    (∀ (t : List Char) (cur : Option (List Char)), t ≠ [] →
      link_words_in_textO (some t) none cur = some (htmlEscape t)) ∧
    (∀ (t : List Char) (cur : Option (List Char)), t ≠ [] →
      link_words_in_textO (some t) (some []) cur = some (htmlEscape t)) := by
  refine ⟨fun idx cur => rfl, fun idx cur => ?_, fun t cur ht => ?_, fun t cur ht => ?_⟩
  · cases idx with
    | none => rfl
    | some i => simp [link_words_in_textO, link_words_in_text]
  · simp [link_words_in_textO, List.isEmpty_iff, ht]
  · simp [link_words_in_textO, link_words_in_text, List.isEmpty_iff, ht]

/-- Witness for C10 at a concrete non-empty text. -/
theorem c10_degenerate_inputs_witness :
    link_words_in_textO (some "abc".toList) none none = some (htmlEscape "abc".toList) ∧
    link_words_in_textO (some "abc".toList) (some []) none = some (htmlEscape "abc".toList) :=
  ⟨c10_degenerate_inputs.2.2.1 _ _ (by decide),
   c10_degenerate_inputs.2.2.2 _ _ (by decide)⟩

/-- C9: linking always terminates with a string result, and every iteration of
the application loop either leaves the state exactly unchanged (the candidate
is silently skipped) or splices the anchor for a successfully re-validated
span; no other outcome exists. -/
theorem c9_totality_silent_degradation :
    (∀ t idx cur, ∃ out, link_words_in_text t idx cur = out) ∧
    (∀ (st : RunState) (c : Entry), applyStep st c = st ∨
      ∃ s e, relocate st.text c = some (s, e) ∧
        applyStep st c =
          { text := st.text.take s ++ linkHtml c.filename c.word ++ st.text.drop e,
            positions :=
              st.positions ++ [(s, s + (linkHtml c.filename c.word).length)] }) := by
  refine ⟨fun t idx cur => ⟨_, rfl⟩, fun st c => ?_⟩
  unfold applyStep
  cases h : relocate st.text c with
  | none => exact Or.inl rfl
  | some se =>
      obtain ⟨s, e⟩ := se
      by_cases h1 : tagUnsafe st.text s
      · simp [h1]
      · by_cases h2 : boundaryOk st.text s e c.isRoot
        · by_cases h3 : overlapsExisting st.positions s e
          · simp [h1, h2, h3]
          · exact Or.inr ⟨s, e, rfl, by simp [h1, h2, h3]⟩
        · simp [h1, h2]

/-- C7: whenever the re-validated span start lies after an unmatched `<`
(the last `<` in the text before it comes after the last `>`), the step drops
the candidate and leaves the state unchanged, so no anchor is ever spliced at
a position inside an open tag. -/
theorem c7_tag_safety :
    ∀ (st : RunState) (c : Entry) (s e : Nat),
      relocate st.text c = some (s, e) → tagUnsafe st.text s = true →
      applyStep st c = st := by
  intro st c s e h1 h2
  unfold applyStep
  rw [h1]
  simp [h2]

/-- Witness for C7: a candidate sitting after a dangling `<x ` is dropped. -/
theorem c7_tag_safety_witness :
    relocate (RunState.mk "<x काम".toList []).text ⟨"काम".toList, 3, 6, "f".toList, false⟩
        = some (3, 6) ∧
    tagUnsafe (RunState.mk "<x काम".toList []).text 3 = true ∧
    applyStep (RunState.mk "<x काम".toList [])
        ⟨"काम".toList, 3, 6, "f".toList, false⟩ = RunState.mk "<x काम".toList [] :=
  ⟨by decide, by decide, c7_tag_safety _ _ 3 6 (by decide) (by decide)⟩

set_option maxRecDepth 100000 in
/-- C3: with an index containing `काम` and text `कामको काम गर्नु`, the root
`काम` inside `कामको` is wrapped in an anchor to `काम`'s page with the suffix
`को` left unlinked directly after it, and the bare `काम` is wrapped too. -/
theorem c3_root_suffix_example :
    link_words_in_text "कामको काम गर्नु".toList
        [("काम".toList, "काम.html".toList)] (some "घर".toList) =
      ("<a href=\"./काम.html\" style=\"color: #0f62fe; text-decoration: underline;\">काम</a>को " ++
       "<a href=\"./काम.html\" style=\"color: #0f62fe; text-decoration: underline;\">काम</a> गर्नु").toList := by
  decide

/-- Inserting a pair whose value is computed from its key preserves the
value-is-function-of-key property of the whole dict. -/
theorem pyIdxInsert_values {f : List Char → List Char} {d : Index} {w : List Char}
    (hd : ∀ kv ∈ d, kv.2 = f kv.1) :
    ∀ kv ∈ pyIdxInsert d (w, f w), kv.2 = f kv.1 := by
  intro kv hkv
  unfold pyIdxInsert at hkv
  split at hkv
  · obtain ⟨x, hx, hxe⟩ := List.mem_map.mp hkv
    by_cases hk : entryKey = entryKey
    · revert hxe
      split
      · rintro rfl; rfl
      · rintro rfl; exact hd x hx
    · revert hxe
      split
      · rintro rfl; rfl
      · rintro rfl; exact hd x hx
  · rcases List.mem_append.mp hkv with h | h
    · exact hd kv h
    · simp only [List.mem_singleton] at h
      subst h; rfl

/-- The inner registration loop preserves the property. -/
theorem buildIndex_inner_values {f : List Char → List Char} :
    ∀ (ws : List (List Char)) (d : Index), (∀ kv ∈ d, kv.2 = f kv.1) →
      ∀ kv ∈ ws.foldl (fun d w =>
          if !w.isEmpty && 3 ≤ w.length then pyIdxInsert d (w, f w) else d) d,
        kv.2 = f kv.1 := by
  intro ws
  induction ws with
  | nil => intro d hd kv hkv; exact hd kv hkv
  | cons w ws ih =>
      intro d hd kv hkv
      simp only [List.foldl_cons] at hkv
      refine ih _ ?_ kv hkv
      split
      · exact pyIdxInsert_values hd
      · exact hd

/-- Every pair of the finished index maps its key `w` to `f w`. -/
theorem buildIndex_values {f : List Char → List Char} :
    ∀ (wfs : List (List Char)) (kv : List Char × List Char),
      kv ∈ buildIndex f wfs → kv.2 = f kv.1 := by
  intro wfs
  unfold buildIndex
  have main : ∀ (l : List (List Char)) (d : Index), (∀ kv ∈ d, kv.2 = f kv.1) →
      ∀ kv ∈ l.foldl (fun d wf =>
          (entryWords wf).foldl (fun d w =>
            if !w.isEmpty && 3 ≤ w.length then pyIdxInsert d (w, f w) else d) d) d,
        kv.2 = f kv.1 := by
    intro l
    induction l with
    | nil => intro d hd kv hkv; exact hd kv hkv
    | cons wf l ih =>
        intro d hd kv hkv
        simp only [List.foldl_cons] at hkv
        exact ih _ (buildIndex_inner_values _ _ hd) kv hkv
  intro kv hkv
  exact main wfs [] (by simp) kv hkv

/-- A successful `pyLookup` returns the value of a member pair at that key. -/
theorem pyLookup_mem {d : Index} {k fn : List Char} (h : pyLookup d k = some fn) :
    (k, fn) ∈ d := by
  unfold pyLookup at h
  split at h
  · next kv hkv =>
      obtain rfl : kv.2 = fn := by injection h
      have hmem := List.mem_of_find?_eq_some hkv
      have hpred := List.find?_some hkv
      have : kv.1 = k := by simpa using hpred
      rw [← this]
      simpa using hmem
  · exact absurd h (by simp)

/-- C8: whatever the order and multiplicity of registrations, the finished
index maps every key `w` it contains to the filename computed from `w` itself
(the source's `get_filename(w)`, abstracted as `f`): a later registration of
an existing key never changes the stored value. -/
theorem c8_index_value_function_of_key :
    ∀ (f : List Char → List Char) (wordFields : List (List Char))
      (w fn : List Char),
      pyLookup (buildIndex f wordFields) w = some fn → fn = f w :=
  fun _f wordFields w fn h => buildIndex_values wordFields (w, fn) (pyLookup_mem h)

/-- Witness for C8: two entries registering `काम` both map it to its own
filename. -/
theorem c8_index_value_function_of_key_witness :
    pyLookup (buildIndex (fun w => w ++ ".html".toList)
        ["काम".toList, "काम/घर".toList]) "काम".toList = some "काम.html".toList ∧
    "काम.html".toList = (fun (w : List Char) => w ++ ".html".toList) "काम".toList :=
  ⟨by decide,
   c8_index_value_function_of_key (fun w => w ++ ".html".toList)
     ["काम".toList, "काम/घर".toList] "काम".toList "काम.html".toList (by decide)⟩

/-- The suffix loop of `find_root_word` picks exactly the first table entry
passing the combined tests of `findRootSpec` (the length-≥-3 re-test never
fires because `len(w) > len(s) + 2` already guarantees it). -/
theorem findRootGo_eq_find (w : List Char) :
    ∀ L : List (List Char), findRootGo w L =
      (match L.find?
          (fun s => s.isSuffixOf w && s.length + 2 < w.length && 3 ≤ w.length - s.length) with
       | some s => w.take (w.length - s.length)
       | none => w) := by
  intro L
  induction L with
  | nil => rfl
  | cons s rest ih =>
      simp only [findRootGo]
      by_cases hA : s.isSuffixOf w = true
      · by_cases hB : s.length + 2 < w.length
        · have hC : 3 ≤ w.length - s.length := by omega
          have hmin : min (w.length - s.length) w.length = w.length - s.length := by
            omega
          rw [List.find?_cons_of_pos _ (by simp [hA, hB, hC])]
          simp [hA, hB, hC, List.length_take, hmin]
        · rw [List.find?_cons_of_neg _ (by simp [hB])]
          simpa [hA, hB] using ih
      · rw [List.find?_cons_of_neg _ (by simp [hA])]
        simpa [hA] using ih

/-- C4: `find_root_word` computes exactly the specified longest-first
first-qualifying-suffix root (first conjunct); the root strategy produces a
link (with span `(start, start + len(root))`) precisely when that root differs
from the cleaned word and is an index key (second conjunct); and the suffix
order tried is a longest-first permutation of the suffix table (last two
conjuncts). -/
theorem c4_root_resolution :
    (∀ w : List Char, find_root_word w = findRootSpec w) ∧
    (∀ (idx : Index) (w : List Char) (astart : Nat),
      resolveRoot idx w astart =
        if find_root_word w ≠ w then
          (pyLookup idx (find_root_word w)).map
            (fun fn => ⟨find_root_word w, astart,
              astart + (find_root_word w).length, fn, true⟩)
        else none) ∧
    List.Pairwise (fun a b : List Char => b.length ≤ a.length) sortedSuffixes ∧
    sortedSuffixes.Perm suffixes := by
  refine ⟨fun w => findRootGo_eq_find w sortedSuffixes, ?_, by decide, by decide⟩
  intro idx w astart
  unfold resolveRoot
  by_cases h : find_root_word w ≠ w
  · rw [if_pos h, if_pos h]
    cases hl : pyLookup idx (find_root_word w) <;> simp [hl]
  · rw [if_neg h, if_neg h]

/-- No entry of `known_suffixes` is a proper suffix of another, so any word
ends with at most one of them. -/
theorem known_suffixes_unique :
    ∀ s1 ∈ known_suffixes, ∀ s2 ∈ known_suffixes, ∀ w : List Char,
      s1.isSuffixOf w → s2.isSuffixOf w → s1 = s2 := by
  have base : ∀ s1 ∈ known_suffixes, ∀ s2 ∈ known_suffixes, s1 <:+ s2 → s1 = s2 := by
    decide
  intro s1 h1 s2 h2 w hw1 hw2
  rw [List.isSuffixOf_iff_suffix] at hw1 hw2
  rcases List.suffix_or_suffix_of_suffix hw1 hw2 with h | h
  · exact base s1 h1 s2 h2 h
  · exact (base s2 h2 s1 h1 h).symm

/-- With at most one matching suffix in the list, the source's
continue-on-inner-failure loop (`findSome?`) agrees with first-matching-suffix
selection (`find?` then the inner body). -/
theorem findSome?_eq_find?_of_unique {β : Type} (w : List Char)
    (g : List Char → Option β) :
    ∀ L : List (List Char),
      (∀ s1 ∈ L, ∀ s2 ∈ L, s1.isSuffixOf w → s2.isSuffixOf w → s1 = s2) →
      L.findSome? (fun s => if s.isSuffixOf w then g s else none) =
        (L.find? (fun s => s.isSuffixOf w)).bind g := by
  intro L
  induction L with
  | nil => intro _; rfl
  | cons s rest ih =>
      intro huniq
      by_cases hs : s.isSuffixOf w = true
      · rw [@List.find?_cons_of_pos _ (fun s => s.isSuffixOf w) s rest hs]
        rw [List.findSome?_cons]
        rw [if_pos hs]
        cases hg : g s with
        | some b => simp [hg]
        | none =>
            have hnone : rest.findSome?
                (fun s => if s.isSuffixOf w then g s else none) = none := by
              rw [List.findSome?_eq_none_iff]
              intro x hx
              by_cases hxs : x.isSuffixOf w = true
              · have hxe : x = s :=
                  huniq x (List.mem_cons_of_mem _ hx) s (List.mem_cons_self s rest)
                    hxs hs
                rw [if_pos hxs, hxe, hg]
              · rw [if_neg hxs]
            exact hnone.trans hg.symm
      · rw [@List.find?_cons_of_neg _ (fun s => s.isSuffixOf w) s rest (by simp [hs])]
        rw [List.findSome?_cons, if_neg hs]
        exact ih (fun a ha b hb => huniq a (List.mem_cons_of_mem _ ha)
          b (List.mem_cons_of_mem _ hb))

/-- C5: when exact or root resolution succeeds, the candidate's resolution is
decided before the prefix fallback is ever consulted (first conjunct); and the
fallback itself fires only for cleaned words longer than 4 characters,
resolving on the first suffix of the secondary list that the word ends with,
exactly when the remaining prefix has length at least 3 and is an index key,
with span `(start, start + len(prefix))` (second conjunct). -/
theorem c5_prefix_fallback :
    (∀ (idx : Index) (w : List Char) (astart : Nat),
      ((pyLookup idx w).isSome ∨ (resolveRoot idx w astart).isSome) →
        resolveCandidate idx w astart =
          (resolveExact idx w astart).orElse (fun _ => resolveRoot idx w astart)) ∧
    (∀ (idx : Index) (w : List Char) (astart : Nat),
      resolveKnownSuffix idx w astart =
        if 4 < w.length then
          (known_suffixes.find? (fun s => s.isSuffixOf w)).bind (fun sfx =>
            let p := w.take (w.length - sfx.length)
            if 3 ≤ p.length then
              (pyLookup idx p).map
                (fun fn => ⟨p, astart, astart + p.length, fn, true⟩)
            else none)
        else none) := by
  constructor
  · intro idx w astart h
    unfold resolveCandidate resolveExact
    cases hl : pyLookup idx w with
    | some fn => rfl
    | none =>
        simp only [hl, Option.isSome_none, Bool.false_eq_true, false_or] at h
        cases hr : resolveRoot idx w astart with
        | some r => simp [Option.orElse]
        | none => rw [hr] at h; exact absurd h (by simp)
  · intro idx w astart
    unfold resolveKnownSuffix
    by_cases hlen : 4 < w.length
    · rw [if_pos hlen, if_pos hlen]
      rw [findSome?_eq_find?_of_unique w _ known_suffixes
        (fun s1 h1 s2 h2 => known_suffixes_unique s1 h1 s2 h2 w)]
      congr 1
      funext sfx
      cases hl : pyLookup idx (w.take (w.length - sfx.length)) <;>
        simp [hl]
    · rw [if_neg hlen, if_neg hlen]

/-- Witness for C5 at an exact hit: the fallback is not consulted. -/
theorem c5_prefix_fallback_witness :
    ((pyLookup [("काम".toList, "x.html".toList)] "काम".toList).isSome ∨
      (resolveRoot [("काम".toList, "x.html".toList)] "काम".toList 0).isSome) ∧
    resolveCandidate [("काम".toList, "x.html".toList)] "काम".toList 0 =
      (resolveExact [("काम".toList, "x.html".toList)] "काम".toList 0).orElse
        (fun _ => resolveRoot [("काम".toList, "x.html".toList)] "काम".toList 0) :=
  ⟨Or.inl (by decide),
   c5_prefix_fallback.1 [("काम".toList, "x.html".toList)] "काम".toList 0
     (Or.inl (by decide))⟩

/-- The well-formedness facts carried by every resolved candidate: its span is
`(start, start + len(word))`, the word has at least 3 characters all drawn
from the Devanagari block, its filename is a value stored in the index, and an
exact (non-root) resolution never equals the current word. -/
def EntryProps (idx : Index) (cur : Option (List Char)) (e : Entry) : Prop :=
  e.endPos = e.startPos + e.word.length ∧
  3 ≤ e.word.length ∧
  (∀ ch ∈ e.word, isDevanagari ch = true) ∧
  (∃ k, (k, e.filename) ∈ idx) ∧
  (e.isRoot = false → some e.word ≠ cur)

theorem resolveExact_some {idx : Index} {w : List Char} {a : Nat} {e : Entry}
    (h : resolveExact idx w a = some e) :
    e.word = w ∧ e.startPos = a ∧ e.endPos = a + w.length ∧ e.isRoot = false ∧
      pyLookup idx w = some e.filename := by
  unfold resolveExact at h
  split at h
  · next fn hfn => injection h with h; subst h; exact ⟨rfl, rfl, rfl, rfl, hfn⟩
  · exact absurd h (by simp)

theorem findRootGo_shape (w : List Char) :
    ∀ L, findRootGo w L = w ∨
      (findRootGo w L <+: w ∧ 3 ≤ (findRootGo w L).length) := by
  intro L
  induction L with
  | nil => exact Or.inl rfl
  | cons s rest ih =>
      simp only [findRootGo]
      split
      · split
        · next h =>
            exact Or.inr ⟨List.take_prefix _ _, h⟩
        · exact ih
      · exact ih

theorem resolveRoot_some {idx : Index} {w : List Char} {a : Nat} {e : Entry}
    (h : resolveRoot idx w a = some e) :
    e.word = find_root_word w ∧ e.startPos = a ∧
      e.endPos = a + (find_root_word w).length ∧ e.isRoot = true ∧
      pyLookup idx (find_root_word w) = some e.filename ∧
      find_root_word w ≠ w := by
  unfold resolveRoot at h
  by_cases hne : find_root_word w ≠ w
  · rw [show (let root := find_root_word w;
        if root ≠ w then
          match pyLookup idx root with
          | some fn =>
              some (Entry.mk root a (a + root.length) fn true)
          | none => none
        else none) =
        (match pyLookup idx (find_root_word w) with
         | some fn =>
             some (Entry.mk (find_root_word w) a
               (a + (find_root_word w).length) fn true)
         | none => none) from if_pos hne] at h
    split at h
    · next fn hfn =>
        injection h with h; subst h
        exact ⟨rfl, rfl, rfl, rfl, hfn, hne⟩
    · exact absurd h (by simp)
  · rw [show (let root := find_root_word w;
        if root ≠ w then
          match pyLookup idx root with
          | some fn =>
              some (Entry.mk root a (a + root.length) fn true)
          | none => none
        else none) = none from if_neg hne] at h
    exact absurd h (by simp)

theorem resolveKnownSuffix_some {idx : Index} {w : List Char} {a : Nat} {e : Entry}
    (h : resolveKnownSuffix idx w a = some e) :
    e.word <+: w ∧ 3 ≤ e.word.length ∧ e.startPos = a ∧
      e.endPos = a + e.word.length ∧ e.isRoot = true ∧
      pyLookup idx e.word = some e.filename := by
  unfold resolveKnownSuffix at h
  split at h
  · obtain ⟨sfx, _, hsfx⟩ := List.exists_of_findSome?_eq_some h
    by_cases hsf : sfx.isSuffixOf w = true
    · rw [if_pos hsf] at hsfx
      by_cases hplen : 3 ≤ (w.take (w.length - sfx.length)).length
      · rw [show (let p := w.take (w.length - sfx.length);
            if 3 ≤ p.length then
              match pyLookup idx p with
              | some fn =>
                  some (Entry.mk p a (a + p.length) fn true)
              | none => none
            else none) =
            (match pyLookup idx (w.take (w.length - sfx.length)) with
             | some fn =>
                 some (Entry.mk (w.take (w.length - sfx.length)) a
                   (a + (w.take (w.length - sfx.length)).length) fn true)
             | none => none) from if_pos hplen] at hsfx
        split at hsfx
        · next fn hfn =>
            injection hsfx with hsfx; subst hsfx
            exact ⟨List.take_prefix _ _, hplen, rfl, rfl, rfl, hfn⟩
        · exact absurd hsfx (by simp)
      · rw [show (let p := w.take (w.length - sfx.length);
            if 3 ≤ p.length then
              match pyLookup idx p with
              | some fn =>
                  some (Entry.mk p a (a + p.length) fn true)
              | none => none
            else none) = none from if_neg hplen] at hsfx
        exact absurd hsfx (by simp)
    · rw [if_neg hsf] at hsfx
      exact absurd hsfx (by simp)
  · exact absurd h (by simp)

/-- What a successful resolution guarantees about the produced entry, relative
to the cleaned word `w` and adjusted start `a`. -/
theorem resolveCandidate_some {idx : Index} {w : List Char} {a : Nat} {e : Entry}
    (h : resolveCandidate idx w a = some e) (hw : 3 ≤ w.length) :
    (e.word <+: w ∨ e.word = w) ∧ 3 ≤ e.word.length ∧ e.startPos = a ∧
      e.endPos = a + e.word.length ∧
      (∃ k, (k, e.filename) ∈ idx) ∧
      (e.isRoot = false → e.word = w) := by
  unfold resolveCandidate at h
  cases hx : resolveExact idx w a with
  | some e' =>
      rw [hx] at h
      obtain rfl : e' = e := by injection h
      obtain ⟨h1, h2, h3, h4, h5⟩ := resolveExact_some hx
      refine ⟨Or.inr h1, ?_, h2, ?_, ⟨w, pyLookup_mem h5⟩, fun _ => h1⟩
      · rw [h1]; exact hw
      · rw [h1]; exact h3
  | none =>
      rw [hx] at h
      cases hr : resolveRoot idx w a with
      | some e' =>
          have h' : some e' = some e := by
            simpa [Option.orElse, hr] using h
          obtain rfl : e' = e := by injection h'
          obtain ⟨h1, h2, h3, h4, h5, h6⟩ := resolveRoot_some hr
          rcases findRootGo_shape w sortedSuffixes with hsh | ⟨hp, hlen⟩
          · exact absurd hsh h6
          · refine ⟨Or.inl (by rw [h1]; exact hp), by rw [h1]; exact hlen, h2,
              by rw [h1]; exact h3, ⟨find_root_word w, pyLookup_mem h5⟩,
              fun hf => absurd h4 (by rw [hf]; simp)⟩
      | none =>
          have h' : resolveKnownSuffix idx w a = some e := by
            simpa [Option.orElse, hr] using h
          obtain ⟨h1, h2, h3, h4, h5, h6⟩ := resolveKnownSuffix_some h'
          exact ⟨Or.inl h1, h2, h3, h4, ⟨e.word, pyLookup_mem h6⟩,
            fun hf => absurd h5 (by rw [hf]; simp)⟩


/-- What surviving the cleaning step guarantees: at least 3 characters, not
the current word, characters drawn from the match, and an adjusted span lying
inside the match's span. -/
theorem candidateOfMatch_some {cur : Option (List Char)} {m : Nat × List Char}
    {w : List Char} {astart : Nat}
    (h : candidateOfMatch cur m = some (w, astart)) :
    3 ≤ w.length ∧ some w ≠ cur ∧ (∀ c ∈ w, c ∈ m.2) ∧
      m.1 ≤ astart ∧ astart + w.length ≤ m.1 + m.2.length := by
  unfold candidateOfMatch at h
  set cleaned := (stripPunct m.2).filter (fun c => !isPunct c) with hc
  by_cases hguard : (decide (cleaned.length < 3) || some cleaned == cur) = true
  · rw [if_pos hguard] at h
    exact absurd h (by simp)
  · rw [if_neg hguard] at h
    simp only [Option.some.injEq, Prod.mk.injEq] at h
    obtain ⟨h1, h2⟩ := h
    subst h1
    subst h2
    simp only [Bool.or_eq_true, decide_eq_true_eq, beq_iff_eq, not_or] at hguard
    obtain ⟨hlen, hne⟩ := hguard
    have hmem : ∀ c ∈ cleaned, c ∈ m.2 := by
      intro c hcm
      have h1 : c ∈ stripPunct m.2 := (List.mem_filter.mp hcm).1
      unfold stripPunct at h1
      rw [List.mem_reverse] at h1
      have h2 := (List.dropWhile_sublist (l := (m.2.dropWhile isPunct).reverse)
        (p := isPunct)).mem h1
      rw [List.mem_reverse] at h2
      exact (List.dropWhile_sublist (l := m.2) (p := isPunct)).mem h2
    have hL1 : cleaned.length ≤ (stripPunct m.2).length := List.length_filter_le _ _
    have hL2 : (stripPunct m.2).length ≤ (m.2.dropWhile isPunct).length := by
      unfold stripPunct
      rw [List.length_reverse]
      calc ((m.2.dropWhile isPunct).reverse.dropWhile isPunct).length
          ≤ (m.2.dropWhile isPunct).reverse.length :=
            (List.dropWhile_sublist _).length_le
        _ = (m.2.dropWhile isPunct).length := List.length_reverse _
    have hL3 : (m.2.dropWhile isPunct).length ≤ m.2.length :=
      (List.dropWhile_sublist _).length_le
    exact ⟨by omega, hne, hmem, by omega, by omega⟩

/-- Full guarantees of the scanner: the matches come in increasing, disjoint
position order; each consists of at least 3 Devanagari characters; and each
lies between the pending run's start and the end of the scanned region. -/
theorem scanGo_props :
    ∀ (s : List Char) (i : Nat) (acc : List Char) (accStart : Nat),
      (acc ≠ [] → accStart + acc.length = i) →
      (∀ c ∈ acc, isDevanagari c = true) →
      List.Pairwise (fun m m' : Nat × List Char => m.1 + m.2.length ≤ m'.1)
          (scanGo s i acc accStart) ∧
        ∀ m ∈ scanGo s i acc accStart,
          3 ≤ m.2.length ∧ (∀ c ∈ m.2, isDevanagari c = true) ∧
            (if acc.isEmpty then i else accStart) ≤ m.1 ∧
            m.1 + m.2.length ≤ i + s.length := by
  intro s
  induction s with
  | nil =>
      intro i acc accStart hstart hdev
      unfold scanGo
      by_cases hlen : 3 ≤ acc.length
      · rw [if_pos hlen]
        have hne : acc ≠ [] := by
          intro hnil; rw [hnil] at hlen; simp at hlen
        have heq := hstart hne
        have hemp : acc.isEmpty = false := by
          cases acc with
          | nil => exact absurd rfl hne
          | cons a l => rfl
        refine ⟨List.pairwise_singleton _ _, ?_⟩
        intro m hm
        simp only [List.mem_singleton] at hm
        subst hm
        rw [hemp]
        refine ⟨by simpa using hlen,
          fun c hcr => hdev c (List.mem_reverse.mp hcr), by simp, ?_⟩
        simp only [List.length_reverse, List.length_nil]
        omega
      · rw [if_neg hlen]
        exact ⟨List.Pairwise.nil, fun m hm => absurd hm (by simp)⟩
  | cons c rest ih =>
      intro i acc accStart hstart hdev
      unfold scanGo
      by_cases hdc : isDevanagari c = true
      · rw [if_pos hdc]
        have hstart' : (c :: acc) ≠ [] →
            (if acc.isEmpty then i else accStart) + (c :: acc).length = i + 1 := by
          intro _
          cases acc with
          | nil => simp
          | cons a l =>
              have := hstart (by simp)
              simp only [List.isEmpty_cons] at this ⊢
              simp only [Bool.false_eq_true, if_false, List.length_cons] at this ⊢
              omega
        have hdev' : ∀ x ∈ (c :: acc), isDevanagari x = true := by
          intro x hx
          rcases List.mem_cons.mp hx with rfl | hx
          · exact hdc
          · exact hdev x hx
        obtain ⟨hpw, hall⟩ := ih (i + 1) (c :: acc)
          (if acc.isEmpty then i else accStart) hstart' hdev'
        refine ⟨hpw, fun m hm => ?_⟩
        obtain ⟨h1, h2, h3, h4⟩ := hall m hm
        have hr : ((c :: acc).isEmpty) = false := rfl
        rw [hr] at h3
        simp only [Bool.false_eq_true, if_false] at h3
        refine ⟨h1, h2, h3, ?_⟩
        simp only [List.length_cons] at h4 ⊢
        omega
      · rw [if_neg hdc]
        obtain ⟨hpw, hall⟩ := ih (i + 1) [] 0
          (fun hne => absurd rfl hne) (fun x hx => absurd hx (by simp))
        have htail : ∀ m ∈ scanGo rest (i + 1) [] 0,
            3 ≤ m.2.length ∧ (∀ x ∈ m.2, isDevanagari x = true) ∧
              i + 1 ≤ m.1 ∧ m.1 + m.2.length ≤ i + 1 + rest.length := by
          intro m hm
          obtain ⟨h1, h2, h3, h4⟩ := hall m hm
          exact ⟨h1, h2, by simpa using h3, h4⟩
        constructor
        · rw [List.pairwise_append]
          refine ⟨?_, hpw, ?_⟩
          · split
            · exact List.pairwise_singleton _ _
            · exact List.Pairwise.nil
          · intro m hm m' hm'
            split at hm
            · next hlen =>
                simp only [List.mem_singleton] at hm
                subst hm
                have hne : acc ≠ [] := by
                  intro hnil; rw [hnil] at hlen; simp at hlen
                have heq := hstart hne
                have := (htail m' hm').2.2.1
                simp only [List.length_reverse]
                omega
            · exact absurd hm (by simp)
        · intro m hm
          rcases List.mem_append.mp hm with hm | hm
          · split at hm
            · next hlen =>
                simp only [List.mem_singleton] at hm
                subst hm
                have hne : acc ≠ [] := by
                  intro hnil; rw [hnil] at hlen; simp at hlen
                have heq := hstart hne
                have hemp : acc.isEmpty = false := by
                  cases acc with
                  | nil => exact absurd rfl hne
                  | cons a l => rfl
                rw [hemp]
                refine ⟨by simpa using hlen,
                  fun x hx => hdev x (List.mem_reverse.mp hx), by simp, ?_⟩
                simp only [List.length_reverse, List.length_cons]
                omega
            · exact absurd hm (by simp)
          · obtain ⟨h1, h2, h3, h4⟩ := htail m hm
            refine ⟨h1, h2, ?_, ?_⟩
            · by_cases hemp : acc.isEmpty = true
              · rw [hemp]; simp only [if_pos]; omega
              · have hne : acc ≠ [] := by
                  cases acc with
                  | nil => exact absurd rfl hemp
                  | cons a l => simp
                have heq := hstart hne
                rw [Bool.eq_false_iff.mpr hemp]
                simp only [Bool.false_eq_true, if_false]
                omega
            · simp only [List.length_cons]
              omega

/-- The scanner guarantees at the top level. -/
theorem scanMatches_props (s : List Char) :
    List.Pairwise (fun m m' : Nat × List Char => m.1 + m.2.length ≤ m'.1)
        (scanMatches s) ∧
      ∀ m ∈ scanMatches s,
        3 ≤ m.2.length ∧ (∀ c ∈ m.2, isDevanagari c = true) ∧
          m.1 + m.2.length ≤ s.length := by
  obtain ⟨h1, h2⟩ := scanGo_props s 0 [] 0 (fun h => absurd rfl h)
    (fun x hx => absurd hx (by simp))
  refine ⟨h1, fun m hm => ?_⟩
  obtain ⟨a, b, _, d⟩ := h2 m hm
  exact ⟨a, b, by simpa using d⟩

/-- A resolved match yields an entry with the candidate well-formedness
properties, located inside the match's span. -/
theorem entryOfMatch_props {idx : Index} {cur : Option (List Char)}
    {m : Nat × List Char} {e : Entry}
    (hm : entryOfMatch idx cur m = some e)
    (hdev : ∀ c ∈ m.2, isDevanagari c = true) :
    EntryProps idx cur e ∧ m.1 ≤ e.startPos ∧ e.endPos ≤ m.1 + m.2.length := by
  unfold entryOfMatch at hm
  split at hm
  · next w astart hcand =>
      obtain ⟨hw3, hwne, hwmem, ha1, ha2⟩ := candidateOfMatch_some hcand
      obtain ⟨hpw, h3, hs, he, hfn, hexact⟩ := resolveCandidate_some hm hw3
      have hsub : ∀ c ∈ e.word, c ∈ w := by
        rcases hpw with hp | rfl
        · exact fun c hc => hp.sublist.mem hc
        · exact fun c hc => hc
      have hlenle : e.word.length ≤ w.length := by
        rcases hpw with hp | rfl
        · exact hp.length_le
        · exact le_refl _
      refine ⟨⟨by rw [hs, he], h3, ?_, hfn, ?_⟩, by omega, by omega⟩
      · exact fun ch hch => hdev ch (hwmem ch (hsub ch hch))
      · intro hroot
        rw [hexact hroot]
        exact hwne
  · exact absurd hm (by simp)

/-- Inserting an entry whose key is fresh is an append, for both dict ops. -/
theorem pyDictInsert_fresh {d : List Entry} {e : Entry}
    (h : ∀ x ∈ d, entryKey x ≠ entryKey e) : pyDictInsert d e = d ++ [e] := by
  unfold pyDictInsert
  rw [if_neg]
  simp only [List.any_eq_true, beq_iff_eq, not_exists, not_and]
  intro x hx
  exact h x hx

theorem pyDictInsertIfAbsent_fresh {d : List Entry} {e : Entry}
    (h : ∀ x ∈ d, entryKey x ≠ entryKey e) :
    pyDictInsertIfAbsent d e = d ++ [e] := by
  unfold pyDictInsertIfAbsent
  rw [if_neg]
  simp only [List.any_eq_true, beq_iff_eq, not_exists, not_and]
  intro x hx
  exact h x hx

/-- The candidate-collection fold keeps the dict in ascending disjoint span
order with all entries well formed. -/
theorem buildFold_props (idx : Index) (cur : Option (List Char)) :
    ∀ (ms : List (Nat × List Char)) (d : List Entry) (B : Nat),
      List.Pairwise (fun m m' : Nat × List Char => m.1 + m.2.length ≤ m'.1) ms →
      (∀ m ∈ ms, (∀ c ∈ m.2, isDevanagari c = true) ∧ B ≤ m.1) →
      List.Pairwise (fun x y : Entry => x.endPos ≤ y.startPos) d →
      (∀ x ∈ d, EntryProps idx cur x ∧ x.endPos ≤ B) →
      List.Pairwise (fun x y : Entry => x.endPos ≤ y.startPos)
          (ms.foldl (fun d m => match entryOfMatch idx cur m with
            | none => d
            | some e =>
                if e.isRoot then pyDictInsertIfAbsent d e else pyDictInsert d e) d) ∧
        ∀ x ∈ (ms.foldl (fun d m => match entryOfMatch idx cur m with
            | none => d
            | some e =>
                if e.isRoot then pyDictInsertIfAbsent d e else pyDictInsert d e) d),
          EntryProps idx cur x := by
  intro ms
  induction ms with
  | nil =>
      intro d B _ _ hd hall
      exact ⟨hd, fun x hx => (hall x hx).1⟩
  | cons m ms ih =>
      intro d B hpw hms hd hall
      simp only [List.foldl_cons]
      have hmprops := hms m (List.mem_cons_self m ms)
      have htailm : ∀ m' ∈ ms, (∀ c ∈ m'.2, isDevanagari c = true) ∧
          m.1 + m.2.length ≤ m'.1 := by
        intro m' hm'
        exact ⟨(hms m' (List.mem_cons_of_mem _ hm')).1,
          (List.pairwise_cons.mp hpw).1 m' hm'⟩
      cases he : entryOfMatch idx cur m with
      | none =>
          exact ih d (m.1 + m.2.length) (List.pairwise_cons.mp hpw).2 htailm hd
            (fun x hx => ⟨(hall x hx).1, by
              have := (hall x hx).2
              have := hmprops.2
              omega⟩)
      | some e =>
          obtain ⟨hP, hes, hee⟩ := entryOfMatch_props he hmprops.1
          have hfresh : ∀ x ∈ d, entryKey x ≠ entryKey e := by
            intro x hx hkey
            have h1 := (hall x hx).2
            have h2 := (hall x hx).1.1
            have h3 := (hall x hx).1.2.1
            have hBm := hmprops.2
            have : x.startPos = e.startPos :=
              congrArg (fun k : List Char × Nat × Nat => k.2.1) hkey
            omega
          have hins : (if e.isRoot then pyDictInsertIfAbsent d e
              else pyDictInsert d e) = d ++ [e] := by
            cases e.isRoot with
            | true => simpa using pyDictInsertIfAbsent_fresh hfresh
            | false => simpa using pyDictInsert_fresh hfresh
          dsimp only
          rw [hins]
          have hd' : List.Pairwise (fun x y : Entry => x.endPos ≤ y.startPos)
              (d ++ [e]) := by
            rw [List.pairwise_append]
            refine ⟨hd, List.pairwise_singleton _ _, ?_⟩
            intro x hx y hy
            simp only [List.mem_singleton] at hy
            subst hy
            have := (hall x hx).2
            have := hmprops.2
            omega
          refine ih (d ++ [e]) (m.1 + m.2.length)
            (List.pairwise_cons.mp hpw).2 htailm hd' ?_
          intro x hx
          rcases List.mem_append.mp hx with hx | hx
          · have := (hall x hx).2
            have := hmprops.2
            exact ⟨(hall x hx).1, by omega⟩
          · simp only [List.mem_singleton] at hx
            subst hx
            exact ⟨hP, hee⟩

/-- The `words_to_link` dict of a full scan: ascending disjoint spans, all
entries well formed. -/
theorem buildWordsToLink_props (idx : Index) (cur : Option (List Char))
    (esc : List Char) :
    List.Pairwise (fun x y : Entry => x.endPos ≤ y.startPos)
        (buildWordsToLink idx cur (scanMatches esc)) ∧
      ∀ x ∈ buildWordsToLink idx cur (scanMatches esc), EntryProps idx cur x := by
  obtain ⟨hpw, hall⟩ := scanMatches_props esc
  exact buildFold_props idx cur (scanMatches esc) [] 0 hpw
    (fun m hm => ⟨(hall m hm).2.1, Nat.zero_le _⟩) List.Pairwise.nil
    (fun x hx => absurd hx (by simp))

/-- Inserting below every element of the accumulator appends at its end. -/
theorem insertR_all_le {le : α → α → Bool} {x : α} :
    ∀ acc : List α, (∀ a ∈ acc, le a x = true) → insertR le x acc = acc ++ [x] := by
  intro acc
  induction acc with
  | nil => intro _; rfl
  | cons y ys ih =>
      intro h
      unfold insertR
      rw [if_pos (h y (List.mem_cons_self y ys))]
      rw [ih (fun a ha => h a (List.mem_cons_of_mem _ ha))]
      rfl

/-- An already-sorted list is a fixed point of the stable insertion sort. -/
theorem isort_sorted_id {le : α → α → Bool} :
    ∀ (l acc : List α),
      (∀ a ∈ acc, ∀ b ∈ l, le a b = true) →
      List.Pairwise (fun a b => le a b = true) l →
      l.foldl (fun acc x => insertR le x acc) acc = acc ++ l := by
  intro l
  induction l with
  | nil => intro acc _ _; simp
  | cons x xs ih =>
      intro acc hcross hpw
      simp only [List.foldl_cons]
      rw [insertR_all_le acc (fun a ha => hcross a ha x (List.mem_cons_self x xs))]
      rw [ih (acc ++ [x]) ?_ (List.pairwise_cons.mp hpw).2]
      · simp
      · intro a ha b hb
        rcases List.mem_append.mp ha with ha | ha
        · exact hcross a ha b (List.mem_cons_of_mem _ hb)
        · simp only [List.mem_singleton] at ha
          subst ha
          exact (List.pairwise_cons.mp hpw).1 b hb

/-- The application-order candidate list: descending disjoint spans, all
entries well formed. -/
theorem wordListOf_props (idx : Index) (cur : Option (List Char))
    (esc : List Char) :
    List.Pairwise (fun x y : Entry => y.endPos ≤ x.startPos)
        (wordListOf idx cur esc) ∧
      ∀ x ∈ wordListOf idx cur esc, EntryProps idx cur x := by
  obtain ⟨hpw, hall⟩ := buildWordsToLink_props idx cur esc
  have hsorted : List.Pairwise (fun a b : Entry => sortKeyLe a b = true)
      (buildWordsToLink idx cur (scanMatches esc)) := by
    refine hpw.imp_of_mem ?_
    intro a b ha hb hab
    have h1 := (hall a ha).1
    have h2 := (hall a ha).2.1
    unfold sortKeyLe
    have : a.startPos < b.startPos := by omega
    simp [this]
  have hid : isort sortKeyLe (buildWordsToLink idx cur (scanMatches esc)) =
      buildWordsToLink idx cur (scanMatches esc) := by
    unfold isort
    rw [isort_sorted_id _ [] (fun a ha => absurd ha (by simp)) hsorted]
    simp
  unfold wordListOf
  rw [hid]
  constructor
  · rw [List.pairwise_reverse]
    exact hpw
  · intro x hx
    exact hall x (List.mem_reverse.mp hx)

/-- One instrumented step either keeps the accepted list or appends the
candidate it committed. -/
theorem applyStepG_accepted (st : GState) (c : Entry) :
    (applyStepG st c).accepted = st.accepted ∨
      (applyStepG st c).accepted = st.accepted ++ [c] := by
  unfold applyStepG
  cases relocate st.text c with
  | none => exact Or.inl rfl
  | some se =>
      obtain ⟨s, e⟩ := se
      by_cases h1 : tagUnsafe st.text s
      · simp [h1]
      · by_cases h2 : boundaryOk st.text s e c.isRoot
        · by_cases h3 : overlapsExisting st.positions s e
          · simp [h1, h2, h3]
          · simp [h1, h2, h3]
        · simp [h1, h2]

/-- Every accepted entry of a run is either pre-existing or one of the
processed candidates. -/
theorem foldG_accepted :
    ∀ (cs : List Entry) (st : GState) (e : Entry),
      e ∈ (cs.foldl applyStepG st).accepted → e ∈ st.accepted ∨ e ∈ cs := by
  intro cs
  induction cs with
  | nil => intro st e he; exact Or.inl he
  | cons c cs ih =>
      intro st e he
      simp only [List.foldl_cons] at he
      rcases ih (applyStepG st c) e he with h | h
      · rcases applyStepG_accepted st c with hs | hs
        · rw [hs] at h; exact Or.inl h
        · rw [hs] at h
          rcases List.mem_append.mp h with h | h
          · exact Or.inl h
          · simp only [List.mem_singleton] at h
            subst h
            exact Or.inr (List.mem_cons_self _ _)
      · exact Or.inr (List.mem_cons_of_mem _ h)

set_option maxRecDepth 100000 in
/-- Refutation of C2 as stated: with current word `काम` and text `कामको`,
root resolution strips the suffix `को` and links the occurrence to `काम` —
the very word being defined — so an accepted link *can* target the current
word. -/
theorem c2_self_link_counterexample :
    ¬ (∀ e ∈ (ghostRun "कामको".toList [("काम".toList, "x.html".toList)]
        (some "काम".toList)).accepted, e.word ≠ "काम".toList) := by
  decide

/-- C2 (amended): the self-reference suppression only compares the *cleaned
candidate text* against the current word, so a candidate whose cleaned text
equals the current word is never considered and in particular no *exact*
resolution ever links to the current word; root and prefix resolutions,
however, may still target it. -/
theorem c2_no_exact_self_link :
    ∀ (t : List Char) (idx : Index) (cur : Option (List Char)) (e : Entry),
      e ∈ (ghostRun t idx cur).accepted → e.isRoot = false →
      some e.word ≠ cur := by
  intro t idx cur e he hroot
  unfold ghostRun at he
  rcases foldG_accepted _ _ _ he with h | h
  · exact absurd h (by simp)
  · exact ((wordListOf_props idx cur (htmlEscape t)).2 e h).2.2.2.2 hroot

set_option maxRecDepth 100000 in
/-- Witness for the amended C2: an accepted exact link with a different
current word. -/
theorem c2_no_exact_self_link_witness :
    (⟨"काम".toList, 0, 3, "x.html".toList, false⟩ : Entry) ∈
        (ghostRun "काम x".toList [("काम".toList, "x.html".toList)]
          (some "घर".toList)).accepted ∧
      some ("काम".toList) ≠ some ("घर".toList) :=
  ⟨by decide,
   c2_no_exact_self_link "काम x".toList [("काम".toList, "x.html".toList)]
     (some "घर".toList) ⟨"काम".toList, 0, 3, "x.html".toList, false⟩
     (by decide) rfl⟩

/-- Scanning a concatenation threads the inside-a-tag state. -/
theorem scanState_append :
    ∀ (A B : List Char) (b : Bool),
      scanState b (A ++ B) = scanState (scanState b A) B := by
  intro A
  induction A with
  | nil => intro B b; cases b <;> rfl
  | cons c xs ih =>
      intro B b
      cases b with
      | false =>
          simp only [List.cons_append, scanState, List.append_eq]
          exact ih B _
      | true =>
          simp only [List.cons_append, scanState, List.append_eq]
          exact ih B _

/-- Tag stripping distributes over concatenation via the scanner state. -/
theorem stripTagsAux_append :
    ∀ (A B : List Char) (b : Bool),
      stripTagsAux b (A ++ B) = stripTagsAux b A ++ stripTagsAux (scanState b A) B := by
  intro A
  induction A with
  | nil => intro B b; cases b <;> rfl
  | cons c xs ih =>
      intro B b
      cases b with
      | false =>
          by_cases hc : c = '<'
          · simp only [List.cons_append, stripTagsAux, scanState, if_pos hc,
              List.append_eq]
            exact ih B true
          · simp only [List.cons_append, stripTagsAux, scanState, if_neg hc,
              List.append_eq]
            rw [ih B false]
      | true =>
          by_cases hc : c = '>'
          · simp only [List.cons_append, stripTagsAux, scanState, if_pos hc,
              List.append_eq]
            exact ih B false
          · simp only [List.cons_append, stripTagsAux, scanState, if_neg hc,
              List.append_eq]
            exact ih B true

/-- Text without tag characters is returned verbatim, staying outside a tag. -/
theorem plain_strip :
    ∀ A : List Char, (∀ c ∈ A, c ≠ '<' ∧ c ≠ '>') →
      stripTagsAux false A = A ∧ scanState false A = false := by
  intro A
  induction A with
  | nil => intro _; exact ⟨rfl, rfl⟩
  | cons c xs ih =>
      intro h
      have hc := h c (List.mem_cons_self c xs)
      have hxs := ih (fun x hx => h x (List.mem_cons_of_mem _ hx))
      constructor
      · simp only [stripTagsAux, if_neg hc.1]
        rw [hxs.1]
      · simp only [scanState, if_neg hc.1]
        exact hxs.2

/-- A tag-character-free prefix passes through the stripper unchanged. -/
theorem stripTagsAux_plain_append {A : List Char} (B : List Char)
    (h : ∀ c ∈ A, c ≠ '<' ∧ c ≠ '>') :
    stripTagsAux false (A ++ B) = A ++ stripTagsAux false B := by
  rw [stripTagsAux_append, (plain_strip A h).1, (plain_strip A h).2]

/-- Inside a tag, everything up to and including the closing `>` is dropped. -/
theorem tag_strip :
    ∀ A B : List Char, '>' ∉ A →
      stripTagsAux true (A ++ '>' :: B) = stripTagsAux false B := by
  intro A
  induction A with
  | nil =>
      intro B _
      simp [stripTagsAux]
  | cons a as ih =>
      intro B h
      have ha : a ≠ '>' := by
        intro hc; exact h (hc ▸ List.mem_cons_self a as)
      simp only [List.cons_append, stripTagsAux, if_neg ha]
      exact ih B (fun hc => h (List.mem_cons_of_mem _ hc))

/-- `rfind` returns `-1` or a valid index. -/
theorem rfindIdx_ge :
    ∀ (A : List Char) (ch : Char), -1 ≤ rfindIdx A ch := by
  intro A ch
  induction A with
  | nil => simp [rfindIdx]
  | cons x xs ih =>
      simp only [rfindIdx]
      split
      · omega
      · split <;> omega

/-- `rfind` never reaches the length of the list. -/
theorem rfindIdx_lt_length :
    ∀ (A : List Char) (ch : Char), rfindIdx A ch < (A.length : Int) := by
  intro A ch
  induction A with
  | nil => simp [rfindIdx]
  | cons x xs ih =>
      simp only [rfindIdx, List.length_cons]
      split
      · push_cast
        omega
      · split <;> push_cast <;> omega

/-- `rfind` on a list ending in `c`. -/
theorem rfindIdx_snoc :
    ∀ (A : List Char) (c ch : Char),
      rfindIdx (A ++ [c]) ch = if c = ch then (A.length : Int) else rfindIdx A ch := by
  intro A
  induction A with
  | nil =>
      intro c ch
      by_cases hc : c = ch <;>
        simp [rfindIdx, hc]
  | cons x xs ih =>
      intro c ch
      have hge : -1 ≤ rfindIdx xs ch := rfindIdx_ge xs ch
      have ih' : rfindIdx (xs.append [c]) ch =
          if c = ch then (xs.length : Int) else rfindIdx xs ch := ih c ch
      simp only [List.cons_append, rfindIdx, ih']
      by_cases hc : c = ch
      · simp only [if_pos hc, List.length_cons]
        rw [if_pos (by omega)]
        omega
      · simp only [if_neg hc]

/-- When the scanner ends inside a tag, the last `<` comes after the last `>`
(or the initial inside state was never closed because no `>` occurs). -/
theorem scanState_true_rfind :
    ∀ (A : List Char) (b : Bool), scanState b A = true →
      rfindIdx A '<' > rfindIdx A '>' ∨ (b = true ∧ rfindIdx A '>' = -1) := by
  intro A
  induction A using List.reverseRecOn with
  | nil =>
      intro b h
      cases b with
      | false => exact absurd h (by simp [scanState])
      | true => exact Or.inr ⟨rfl, rfl⟩
  | append_singleton A c ih =>
      intro b h
      rw [scanState_append] at h
      by_cases hlt : c = '<'
      · subst hlt
        rw [rfindIdx_snoc, rfindIdx_snoc]
        rw [if_pos rfl, if_neg (by decide)]
        have := rfindIdx_lt_length A '>'
        exact Or.inl (by omega)
      · by_cases hgt : c = '>'
        · subst hgt
          cases hs : scanState b A with
          | false => rw [hs] at h; exact absurd h (by simp [scanState])
          | true => rw [hs] at h; exact absurd h (by simp [scanState])
        · have hstep : scanState (scanState b A) [c] = scanState b A := by
            cases scanState b A with
            | false => simp [scanState, hlt]
            | true => simp [scanState, hgt]
          rw [hstep] at h
          rw [rfindIdx_snoc, rfindIdx_snoc, if_neg hlt, if_neg hgt]
          exact ih b h

/-- Contrapositive form used at commit points: if the coded tag check passes,
the position is outside every tag. -/
theorem scanState_false_of_tag_ok {A : List Char}
    (h : ¬(rfindIdx A '<' > rfindIdx A '>')) : scanState false A = false := by
  cases hs : scanState false A with
  | false => rfl
  | true =>
      rcases scanState_true_rfind A false hs with hc | ⟨hb, _⟩
      · exact absurd hc h
      · exact absurd hb (by simp)

/-- Escaped text contains no raw tag characters. -/
theorem htmlEscape_no_tags (t : List Char) :
    ∀ c ∈ htmlEscape t, c ≠ '<' ∧ c ≠ '>' := by
  intro c hc
  unfold htmlEscape at hc
  rw [List.mem_flatten] at hc
  obtain ⟨l, hl, hcl⟩ := hc
  rw [List.mem_map] at hl
  obtain ⟨x, _, hx⟩ := hl
  subst hx
  unfold escapeChar at hcl
  split at hcl
  · exact (by decide : ∀ x ∈ "&amp;".toList, x ≠ '<' ∧ x ≠ '>') c hcl
  · split at hcl
    · exact (by decide : ∀ x ∈ "&lt;".toList, x ≠ '<' ∧ x ≠ '>') c hcl
    · split at hcl
      · exact (by decide : ∀ x ∈ "&gt;".toList, x ≠ '<' ∧ x ≠ '>') c hcl
      · split at hcl
        · exact (by decide : ∀ x ∈ "&quot;".toList, x ≠ '<' ∧ x ≠ '>') c hcl
        · split at hcl
          · exact (by decide : ∀ x ∈ "&#x27;".toList, x ≠ '<' ∧ x ≠ '>') c hcl
          · next h1 h2 h3 h4 h5 =>
              simp only [List.mem_singleton] at hcl
              subst hcl
              exact ⟨h2, h3⟩

/-- Stripping the tags of a spliced anchor recovers exactly the wrapped word,
provided the filename carries no `>` and the word no tag characters. -/
theorem linkHtml_strip {fn w : List Char} (rest : List Char)
    (hfn : '>' ∉ fn) (hw : ∀ c ∈ w, c ≠ '<' ∧ c ≠ '>') :
    stripTagsAux false (linkHtml fn w ++ rest) = w ++ stripTagsAux false rest := by
  have hpre : htmlPre = '<' :: "a href=\"./".toList := by decide
  have hmid : htmlMid =
      "\" style=\"color: #0f62fe; text-decoration: underline;\"".toList ++ ['>'] := by
    decide
  have hclose : htmlClose = '<' :: ("/a".toList ++ ['>']) := by decide
  have hshape : linkHtml fn w ++ rest =
      '<' :: (("a href=\"./".toList ++ fn ++
        "\" style=\"color: #0f62fe; text-decoration: underline;\"".toList) ++
        '>' :: (w ++ ('<' :: ("/a".toList ++ '>' :: rest)))) := by
    unfold linkHtml
    rw [hpre, hmid, hclose]
    simp [List.append_assoc]
  rw [hshape]
  have hstep : stripTagsAux false
      ('<' :: (("a href=\"./".toList ++ fn ++
        "\" style=\"color: #0f62fe; text-decoration: underline;\"".toList) ++
        '>' :: (w ++ ('<' :: ("/a".toList ++ '>' :: rest))))) =
      stripTagsAux true
        (("a href=\"./".toList ++ fn ++
          "\" style=\"color: #0f62fe; text-decoration: underline;\"".toList) ++
          '>' :: (w ++ ('<' :: ("/a".toList ++ '>' :: rest)))) := by
    simp [stripTagsAux]
  rw [hstep]
  rw [tag_strip _ _ (by
    intro hmem
    rcases List.mem_append.mp hmem with hmem | hmem
    · rcases List.mem_append.mp hmem with hmem | hmem
      · revert hmem; decide
      · exact hfn hmem
    · revert hmem; decide)]
  rw [stripTagsAux_plain_append _ hw]
  have hstep2 : stripTagsAux false ('<' :: ("/a".toList ++ '>' :: rest)) =
      stripTagsAux true ("/a".toList ++ '>' :: rest) := by
    simp [stripTagsAux]
  rw [hstep2]
  rw [tag_strip _ _ (by decide)]

/-- A hit of the windowed search is a genuine in-window match. -/
theorem strFind_some {l w : List Char} {a b p : Nat}
    (h : strFind l w a b = some p) :
    pySlice l p (p + w.length) = w ∧ a ≤ p ∧ p + w.length ≤ b := by
  unfold strFind at h
  have hpred := List.find?_some h
  have hmem := List.mem_of_find?_eq_some h
  rw [List.mem_range'_1] at hmem
  exact ⟨by simpa using hpred, hmem.1, by omega⟩

/-- A re-validated span matches the candidate's word and respects the ±10
relocation window. -/
theorem relocate_some {text : List Char} {c : Entry} {s e : Nat}
    (h : relocate text c = some (s, e))
    (hc : c.endPos = c.startPos + c.word.length) :
    pySlice text s e = c.word ∧ e = s + c.word.length ∧
      c.startPos ≤ s + 10 ∧ e ≤ c.endPos + 10 := by
  unfold relocate at h
  split at h
  · next hsl =>
      simp only [Option.some.injEq, Prod.mk.injEq] at h
      obtain ⟨h1, h2⟩ := h
      subst h1
      subst h2
      exact ⟨by simpa using hsl, by omega, by omega, by omega⟩
  · split at h
    · next p hp =>
        simp only [Option.some.injEq, Prod.mk.injEq] at h
        obtain ⟨h1, h2⟩ := h
        subst h1
        subst h2
        obtain ⟨hsl, hlo, hhi⟩ := strFind_some hp
        refine ⟨hsl, rfl, by omega, ?_⟩
        have := min_le_right text.length (c.endPos + 10)
        omega
    · exact absurd h (by simp)

/-- A matching slice splits the text in three. -/
theorem slice_split {text w : List Char} {s e : Nat}
    (h : pySlice text s e = w) (hw : 0 < w.length) :
    text = text.take s ++ w ++ text.drop e := by
  unfold pySlice at h
  have hlen : w.length = min (e - s) (text.length - s) := by
    rw [← h, List.length_take, List.length_drop]
  have hes : 0 < e - s := by omega
  have h2 : (text.drop s).drop (e - s) = text.drop e := by
    rw [List.drop_drop]
    congr 1
    omega
  have h3 : text.drop s = w ++ text.drop e := by
    conv_lhs => rw [← List.take_append_drop (e - s) (text.drop s)]
    rw [h, h2]
  conv_lhs => rw [← List.take_append_drop s text, h3]
  rw [List.append_assoc]

/-- Case analysis of the (plain) application step: untouched state, or a
commit at a re-validated span that passed the tag and overlap checks. -/
theorem applyStep_cases (st : RunState) (c : Entry) :
    applyStep st c = st ∨
      ∃ s e, relocate st.text c = some (s, e) ∧
        tagUnsafe st.text s = false ∧
        overlapsExisting st.positions s e = false ∧
        applyStep st c =
          { text := st.text.take s ++ linkHtml c.filename c.word ++ st.text.drop e,
            positions :=
              st.positions ++ [(s, s + (linkHtml c.filename c.word).length)] } := by
  unfold applyStep
  cases h : relocate st.text c with
  | none => exact Or.inl rfl
  | some se =>
      obtain ⟨s, e⟩ := se
      by_cases h1 : tagUnsafe st.text s
      · simp [h1]
      · by_cases h2 : boundaryOk st.text s e c.isRoot
        · by_cases h3 : overlapsExisting st.positions s e
          · simp [h1, h2, h3]
          · exact Or.inr ⟨s, e, rfl, Bool.eq_false_iff.mpr h1,
              Bool.eq_false_iff.mpr h3, by simp [h1, h2, h3]⟩
        · simp [h1, h2]

/-- Devanagari characters are not tag characters. -/
theorem dev_not_tag {ch : Char} (h : isDevanagari ch = true) :
    ch ≠ '<' ∧ ch ≠ '>' := by
  unfold isDevanagari at h
  simp only [Bool.and_eq_true, decide_eq_true_eq] at h
  constructor <;> rintro rfl <;> exact absurd h.1 (by decide)

/-- One application step never changes the tag-stripped content: a skip leaves
the text alone, and a commit wraps exactly the text present at the span. -/
theorem applyStep_stripTags {st : RunState} {c : Entry}
    (hc : c.endPos = c.startPos + c.word.length) (hw3 : 0 < c.word.length)
    (hwnt : ∀ ch ∈ c.word, ch ≠ '<' ∧ ch ≠ '>') (hfn : '>' ∉ c.filename) :
    stripTags (applyStep st c).text = stripTags st.text := by
  rcases applyStep_cases st c with h | ⟨s, e, hrel, htag, _, hcommit⟩
  · rw [h]
  · rw [hcommit]
    obtain ⟨hsl, he, _, _⟩ := relocate_some hrel hc
    have hdecomp : st.text = st.text.take s ++ c.word ++ st.text.drop e :=
      slice_split hsl hw3
    have hscan : scanState false (st.text.take s) = false := by
      apply scanState_false_of_tag_ok
      intro hgt
      unfold tagUnsafe at htag
      exact absurd hgt (of_decide_eq_false htag)
    conv_rhs => rw [hdecomp]
    unfold stripTags
    dsimp only
    simp only [List.append_assoc]
    rw [stripTagsAux_append (st.text.take s)
      (linkHtml c.filename c.word ++ st.text.drop e) false]
    rw [stripTagsAux_append (st.text.take s) (c.word ++ st.text.drop e) false]
    rw [hscan]
    rw [linkHtml_strip _ hfn hwnt, stripTagsAux_plain_append _ hwnt]

/-- C6 (amended): whenever every filename of the index is free of `>`,
removing all tags from the linked output recovers exactly the escaped input:
every splice wraps precisely the text present at the spliced span. -/
theorem c6_round_trip :
    ∀ (t : List Char) (idx : Index) (cur : Option (List Char)),
      (∀ kv ∈ idx, '>' ∉ kv.2) →
      stripTags (link_words_in_text t idx cur) = htmlEscape t := by
  intro t idx cur hidx
  unfold link_words_in_text
  by_cases hg : (t.isEmpty || idx.isEmpty) = true
  · rw [if_pos hg]
    by_cases ht : t.isEmpty = true
    · rw [if_pos ht]
      have : t = [] := by
        cases t with
        | nil => rfl
        | cons a l => exact absurd ht (by simp)
      subst this
      rfl
    · rw [if_neg ht]
      exact (plain_strip _ (htmlEscape_no_tags t)).1
  · rw [if_neg hg]
    show stripTags
        (if (buildWordsToLink idx cur (scanMatches (htmlEscape t))).isEmpty then
          htmlEscape t
        else ((wordListOf idx cur (htmlEscape t)).foldl applyStep
          ⟨htmlEscape t, []⟩).text) = htmlEscape t
    by_cases hwl : (buildWordsToLink idx cur (scanMatches (htmlEscape t))).isEmpty = true
    · rw [if_pos hwl]
      exact (plain_strip _ (htmlEscape_no_tags t)).1
    · rw [if_neg hwl]
      have hfold : ∀ (cs : List Entry) (st : RunState),
          (∀ e ∈ cs, EntryProps idx cur e) →
          stripTags (cs.foldl applyStep st).text = stripTags st.text := by
        intro cs
        induction cs with
        | nil => intro st _; rfl
        | cons c cs ih =>
            intro st hall
            simp only [List.foldl_cons]
            rw [ih _ (fun e he => hall e (List.mem_cons_of_mem _ he))]
            obtain ⟨hP1, hP2, hP3, hP4, _⟩ := hall c (List.mem_cons_self c cs)
            obtain ⟨k, hk⟩ := hP4
            exact applyStep_stripTags hP1 (by omega)
              (fun ch hch => dev_not_tag (hP3 ch hch)) (hidx (k, c.filename) hk)
      rw [hfold _ _ (wordListOf_props idx cur (htmlEscape t)).2]
      exact (plain_strip _ (htmlEscape_no_tags t)).1

set_option maxRecDepth 100000 in
/-- Refutation of C6 as stated over *every* non-empty index: a filename that
contains `>` terminates the opening tag early, so stripping tags does not
recover the escaped text. -/
theorem c6_round_trip_counterexample :
    stripTags (link_words_in_text "काम x".toList
        [("काम".toList, "a>b".toList)] none) ≠ htmlEscape "काम x".toList := by
  decide

set_option maxRecDepth 100000 in
/-- Witness for the amended C6 on a linking run that inserts an anchor. -/
theorem c6_round_trip_witness :
    (∀ kv ∈ [("काम".toList, "a.html".toList)], '>' ∉ kv.2) ∧
      stripTags (link_words_in_text "काम x".toList
        [("काम".toList, "a.html".toList)] none) = htmlEscape "काम x".toList :=
  ⟨by decide,
   c6_round_trip "काम x".toList [("काम".toList, "a.html".toList)] none (by decide)⟩

/-- Case analysis of the instrumented step, mirroring `applyStep_cases`. -/
theorem applyStepG_cases (st : GState) (c : Entry) :
    applyStepG st c = st ∨
      ∃ s e, relocate st.text c = some (s, e) ∧
        overlapsExisting st.positions s e = false ∧
        applyStepG st c =
          { text := st.text.take s ++ linkHtml c.filename c.word ++ st.text.drop e,
            positions :=
              st.positions ++ [(s, s + (linkHtml c.filename c.word).length)],
            ghost := (st.ghost.map (fun g =>
                (g.1 + ((linkHtml c.filename c.word).length - (e - s)),
                 g.2 + ((linkHtml c.filename c.word).length - (e - s))))) ++
              [(s, s + (linkHtml c.filename c.word).length)],
            accepted := st.accepted ++ [c] } := by
  unfold applyStepG
  cases h : relocate st.text c with
  | none => exact Or.inl rfl
  | some se =>
      obtain ⟨s, e⟩ := se
      by_cases h1 : tagUnsafe st.text s
      · simp [h1]
      · by_cases h2 : boundaryOk st.text s e c.isRoot
        · by_cases h3 : overlapsExisting st.positions s e
          · simp [h1, h2, h3]
          · exact Or.inr ⟨s, e, rfl, Bool.eq_false_iff.mpr h3, by simp [h1, h2, h3]⟩
        · simp [h1, h2]

/-- The instrumented run computes the same text and committed spans as the
source's loop. -/
theorem applyStepG_proj (st : GState) (c : Entry) :
    (applyStepG st c).text = (applyStep ⟨st.text, st.positions⟩ c).text ∧
      (applyStepG st c).positions = (applyStep ⟨st.text, st.positions⟩ c).positions := by
  unfold applyStepG applyStep
  cases relocate st.text c with
  | none => exact ⟨rfl, rfl⟩
  | some se =>
      obtain ⟨s, e⟩ := se
      by_cases h1 : tagUnsafe st.text s
      · simp [h1]
      · by_cases h2 : boundaryOk st.text s e c.isRoot
        · by_cases h3 : overlapsExisting st.positions s e
          · simp [h1, h2, h3]
          · simp [h1, h2, h3]
        · simp [h1, h2]

theorem foldG_proj :
    ∀ (cs : List Entry) (st : GState),
      (cs.foldl applyStepG st).text =
        (cs.foldl applyStep ⟨st.text, st.positions⟩).text := by
  intro cs
  induction cs with
  | nil => intro st; rfl
  | cons c cs ih =>
      intro st
      simp only [List.foldl_cons]
      rw [ih (applyStepG st c)]
      obtain ⟨h1, h2⟩ := applyStepG_proj st c
      congr 1
      cases hst : applyStep ⟨st.text, st.positions⟩ c with
      | mk t p =>
          rw [hst] at h1 h2
          simp only at h1 h2
          cases happ : applyStepG st c with
          | mk t' p' g' a' =>
              rw [happ] at h1 h2
              simp only at h1 h2
              subst h1
              subst h2
              rfl

/-- Every element of the right list of a `Forall₂` has a related element on
the left. -/
theorem forall₂_mem_right {r : α → β → Prop} :
    ∀ {l : List α} {u : List β}, List.Forall₂ r l u →
      ∀ b ∈ u, ∃ a ∈ l, r a b := by
  intro l u h
  induction h with
  | nil => intro b hb; exact absurd hb (by simp)
  | cons hr _ ih =>
      intro b hb
      rcases List.mem_cons.mp hb with rfl | hb
      · exact ⟨_, List.mem_cons_self _ _, hr⟩
      · obtain ⟨a, ha, hab⟩ := ih b hb
        exact ⟨a, List.mem_cons_of_mem _ ha, hab⟩

/-- The spliced anchor's literal length. -/
theorem linkHtml_length (fn w : List Char) :
    (linkHtml fn w).length = fn.length + w.length + 69 := by
  unfold linkHtml
  simp only [List.length_append]
  have h1 : htmlPre.length = 11 := by decide
  have h2 : htmlMid.length = 54 := by decide
  have h3 : htmlClose.length = 4 := by decide
  omega

/-- The invariant of the right-to-left application loop: the remaining
candidates hold descending disjoint spans lying (up to the ±10 relocation
window) left of every committed span; committed spans are at least 21
characters long; each ghost span sits at or right of its recorded span; and
the ghost spans are pairwise disjoint. -/
def GInv (cs : List Entry) (st : GState) : Prop :=
  List.Pairwise (fun c c' : Entry => c'.endPos ≤ c.startPos) cs ∧
  (∀ c ∈ cs, c.endPos = c.startPos + c.word.length ∧ 0 < c.word.length) ∧
  (∀ p ∈ st.positions, p.1 + 21 ≤ p.2) ∧
  (∀ c ∈ cs, ∀ p ∈ st.positions, c.endPos ≤ p.1 + 10) ∧
  List.Forall₂ (fun p g : Nat × Nat => p.1 ≤ g.1) st.positions st.ghost ∧
  List.Pairwise (fun g g' : Nat × Nat => g'.2 ≤ g.1) st.ghost

/-- Preservation of the loop invariant by one instrumented step: a skip keeps
everything, and a commit splices strictly to the left of every committed span
(the ±10 relocation cannot jump past one: a span the relocated end would enter
is at least 21 characters long, so the overlap check rejects it), so shifting
the ghost spans right by the length change keeps them disjoint. -/
theorem applyStepG_inv {c : Entry} {cs : List Entry} {st : GState}
    (h : GInv (c :: cs) st) : GInv cs (applyStepG st c) := by
  obtain ⟨hpw, hwf, hP21, hP10, hF2, hG⟩ := h
  have hpw_head := (List.pairwise_cons.mp hpw).1
  have hpw_tail := (List.pairwise_cons.mp hpw).2
  have hwf_head := hwf c (List.mem_cons_self _ _)
  have hwf_tail : ∀ c' ∈ cs, c'.endPos = c'.startPos + c'.word.length ∧
      0 < c'.word.length := fun c' hc' => hwf c' (List.mem_cons_of_mem _ hc')
  rcases applyStepG_cases st c with hskip | ⟨s, e, hrel, hov, hcommit⟩
  · rw [hskip]
    exact ⟨hpw_tail, hwf_tail, hP21,
      fun c' hc' p hp => hP10 c' (List.mem_cons_of_mem _ hc') p hp, hF2, hG⟩
  · obtain ⟨hsl, he_s, hs10, he10⟩ := relocate_some hrel hwf_head.1
    have hH : (linkHtml c.filename c.word).length =
        c.filename.length + c.word.length + 69 := linkHtml_length _ _
    have hovp : ∀ p ∈ st.positions, ¬(s ≥ p.1 ∧ s < p.2) ∧ ¬(e > p.1 ∧ e ≤ p.2) := by
      intro p hp
      unfold overlapsExisting at hov
      rw [List.any_eq_false] at hov
      have hb := hov p hp
      refine ⟨fun hcon => ?_, fun hcon => ?_⟩
      · simp [hcon.1, hcon.2] at hb
      · simp [hcon.1, hcon.2] at hb
    have hkey : ∀ p ∈ st.positions, e ≤ p.1 := by
      intro p hp
      have h10 := hP10 c (List.mem_cons_self _ _) p hp
      have h21 := hP21 p hp
      have hno := (hovp p hp).2
      by_contra hgt
      push_neg at hgt
      exact hno ⟨hgt, by omega⟩
    rw [hcommit]
    refine ⟨hpw_tail, hwf_tail, ?_, ?_, ?_, ?_⟩
    · intro p hp
      rcases List.mem_append.mp hp with hp | hp
      · exact hP21 p hp
      · simp only [List.mem_singleton] at hp
        subst hp
        simp only
        omega
    · intro c' hc' p hp
      rcases List.mem_append.mp hp with hp | hp
      · exact hP10 c' (List.mem_cons_of_mem _ hc') p hp
      · simp only [List.mem_singleton] at hp
        subst hp
        have := hpw_head c' hc'
        simp only
        omega
    · refine List.rel_append ?_ ?_
      · rw [List.forall₂_map_right_iff]
        exact hF2.imp (fun p g hpg => by
          simp only
          omega)
      · exact List.forall₂_cons.mpr ⟨le_refl s, List.Forall₂.nil⟩
    · rw [List.pairwise_append]
      refine ⟨?_, List.pairwise_singleton _ _, ?_⟩
      · rw [List.pairwise_map]
        exact hG.imp (fun hgg => by
          simp only
          omega)
      · intro g hg g' hg'
        simp only [List.mem_singleton] at hg'
        subst hg'
        rw [List.mem_map] at hg
        obtain ⟨g0, hg0, rfl⟩ := hg
        obtain ⟨p, hp, hple⟩ := forall₂_mem_right hF2 g0 hg0
        have hke := hkey p hp
        simp only
        omega

/-- The committed ghost spans of a full run are pairwise disjoint whenever the
invariant holds initially. -/
theorem foldG_inv :
    ∀ (cs : List Entry) (st : GState), GInv cs st →
      List.Pairwise (fun g g' : Nat × Nat => g'.2 ≤ g.1)
        (cs.foldl applyStepG st).ghost := by
  intro cs
  induction cs with
  | nil => intro st h; exact h.2.2.2.2.2
  | cons c cs ih => intro st h; exact ih _ (applyStepG_inv h)

/-- No strategy can hit an empty index. -/
theorem resolveCandidate_nil (w : List Char) (a : Nat) :
    resolveCandidate [] w a = none := by
  have h2 : resolveRoot [] w a = none := by
    unfold resolveRoot
    show (if find_root_word w ≠ w then
        (match pyLookup [] (find_root_word w) with
         | some fn => some (Entry.mk (find_root_word w) a
             (a + (find_root_word w).length) fn true)
         | none => none)
      else none) = none
    split
    · rfl
    · rfl
  have h3 : resolveKnownSuffix [] w a = none := by
    unfold resolveKnownSuffix
    split
    · rw [List.findSome?_eq_none_iff]
      intro sfx _
      by_cases hsf : sfx.isSuffixOf w = true
      · rw [if_pos hsf]
        show (if 3 ≤ (w.take (w.length - sfx.length)).length then
            (match pyLookup [] (w.take (w.length - sfx.length)) with
             | some fn => some (Entry.mk (w.take (w.length - sfx.length)) a
                 (a + (w.take (w.length - sfx.length)).length) fn true)
             | none => none)
          else none) = none
        split
        · rfl
        · rfl
      · rw [if_neg hsf]
    · rfl
  unfold resolveCandidate
  simp only [h2, h3]
  rfl

/-- With an empty index no candidate resolves, so the dict stays empty. -/
theorem buildWordsToLink_nil_idx (cur : Option (List Char))
    (ms : List (Nat × List Char)) : buildWordsToLink [] cur ms = [] := by
  have hstep : ∀ m, entryOfMatch [] cur m = none := by
    intro m
    unfold entryOfMatch
    split
    · exact resolveCandidate_nil _ _
    · rfl
  unfold buildWordsToLink
  induction ms with
  | nil => rfl
  | cons m ms ih =>
      simp only [List.foldl_cons, hstep m]
      exact ih

/-- C1: the committed link spans, tracked in the coordinates of the evolving
(and finally the output) text, are pairwise non-overlapping — later commits
land strictly left of every earlier one even after the ±10 relocation — and
the instrumented run computes exactly the output of `link_words_in_text`. -/
theorem c1_committed_spans_disjoint :
    ∀ (t : List Char) (idx : Index) (cur : Option (List Char)),
      List.Pairwise (fun g g' : Nat × Nat => g'.2 ≤ g.1)
          (ghostRun t idx cur).ghost ∧
        link_words_in_text t idx cur = (ghostRun t idx cur).text := by
  intro t idx cur
  constructor
  · unfold ghostRun
    apply foldG_inv
    obtain ⟨hpw, hall⟩ := wordListOf_props idx cur (htmlEscape t)
    exact ⟨hpw,
      fun c hc => ⟨(hall c hc).1, by have := (hall c hc).2.1; omega⟩,
      fun p hp => absurd hp (by simp),
      fun c hc p hp => absurd hp (by simp),
      List.Forall₂.nil, List.Pairwise.nil⟩
  · unfold ghostRun link_words_in_text
    by_cases hg : (t.isEmpty || idx.isEmpty) = true
    · rw [if_pos hg]
      by_cases ht : t.isEmpty = true
      · rw [if_pos ht]
        have hte : t = [] := by
          cases t with
          | nil => rfl
          | cons a l => exact absurd ht (by simp)
        subst hte
        rfl
      · rw [if_neg ht]
        have hi : idx.isEmpty = true := by
          rcases Bool.or_eq_true_iff.mp hg with h | h
          · exact absurd h ht
          · exact h
        have hie : idx = [] := by
          cases idx with
          | nil => rfl
          | cons a l => exact absurd hi (by simp)
        subst hie
        rw [show wordListOf [] cur (htmlEscape t) = [] by
          unfold wordListOf
          rw [buildWordsToLink_nil_idx]
          rfl]
        rfl
    · rw [if_neg hg]
      show (if (buildWordsToLink idx cur (scanMatches (htmlEscape t))).isEmpty then
          htmlEscape t
        else ((wordListOf idx cur (htmlEscape t)).foldl applyStep
          ⟨htmlEscape t, []⟩).text) = _
      by_cases hwl :
          (buildWordsToLink idx cur (scanMatches (htmlEscape t))).isEmpty = true
      · rw [if_pos hwl]
        have hwle : buildWordsToLink idx cur (scanMatches (htmlEscape t)) = [] := by
          cases hb : buildWordsToLink idx cur (scanMatches (htmlEscape t)) with
          | nil => rfl
          | cons a l => rw [hb] at hwl; exact absurd hwl (by simp)
        rw [show wordListOf idx cur (htmlEscape t) = [] by
          unfold wordListOf
          rw [hwle]
          rfl]
        rfl
      · rw [if_neg hwl]
        rw [foldG_proj (wordListOf idx cur (htmlEscape t))
          ⟨htmlEscape t, [], [], []⟩]
